import Mathlib

/-!
# Verification of the quantum Bloch-sphere animation engine (src/app.py, src/app_backup.py)

This file shallowly embeds the Python source of the repository:

* `src/app.py` — the main engine: a heuristic qubit-count parser
  (`parse_qubit_count`), a display-grid helper (`calculate_grid_dimensions`),
  the statevector → per-qubit Bloch-coordinate computation
  (`statevector_to_bloch_coords`), the step-by-step animation sequencer
  (`get_animation_sequence`), and the top-level driver (`execute_quantum_code`).
* `src/app_backup.py` — an older variant whose single-qubit Bloch-coordinate
  computation (`backup_bloch_entry` below, lines 99-111 of the source) differs
  from the main one.

Modelling conventions:

* Complex amplitudes are Mathlib's `ℂ` (the Python code computes with complex
  floats; we embed the exact arithmetic the formulas denote).
* A statevector over `n` qubits is a function `ℕ → ℂ`; only indices
  `< 2 ^ n` are ever read.  Qiskit's little-endian convention is used
  throughout: bit `q` of an amplitude index is the basis value of qubit `q`.
* Qiskit library calls (`DensityMatrix`, `partial_trace`,
  `Statevector.from_instruction`) are external library code; they are embedded
  by their documented mathematical semantics (outer product, partial trace over
  the traced-out qubits, sequential application of the gate unitaries to
  |0...0⟩).
* Python exceptions are modelled with `Option`: `none` models a raised
  exception at the modelled point.
-/

/-! ## Bit manipulation for little-endian qubit indexing

`insBit q b r` inserts bit `b` at position `q` of `r` (shifting the bits of
`r` at positions ≥ q up by one); it enumerates the joint-basis indices whose
qubit-`q` bit equals `b` as `r` ranges over `2^(n-1)` values.
`bitAt q i` reads bit `q` of `i`; `remBit q i` removes bit `q` from `i`.
These realize the index arithmetic of Qiskit's partial trace. -/

def bitAt (q i : ℕ) : ℕ := i / 2 ^ q % 2

def remBit (q i : ℕ) : ℕ := 2 ^ q * (i / 2 ^ (q + 1)) + i % 2 ^ q

def insBit (q b r : ℕ) : ℕ := 2 ^ (q + 1) * (r / 2 ^ q) + 2 ^ q * b + r % 2 ^ q

/-! ## Statevectors and density matrices -/

/-- Complex conjugation (`np.conj`, and the conjugations inside Qiskit's
density-matrix arithmetic), written out on real and imaginary parts so that
definitions stay executable. -/
def conjC (z : ℂ) : ℂ := ⟨z.re, -z.im⟩

/-- Finite sum of complex values over `Finset.range N`, with the additive
monoid instance pinned to the executable one (`∑` notation resolves a
definitionally equal but noncomputable instance path). -/
def csum (N : ℕ) (f : ℕ → ℂ) : ℂ :=
  @Finset.sum ℕ ℂ Complex.addCommGroup.toAddCommMonoid (Finset.range N) f

theorem conjC_eq (z : ℂ) : conjC z = (starRingEnd ℂ) z := by
  apply Complex.ext <;> simp [conjC]

theorem csum_eq (N : ℕ) (f : ℕ → ℂ) : csum N f = ∑ r ∈ Finset.range N, f r := rfl

/-- app.py line 85: `Statevector.from_label('0' * num_qubits)` — the all-zero
basis state: amplitude 1 at index 0, 0 elsewhere. -/
def initSV (_n : ℕ) : ℕ → ℂ := fun i => if i = 0 then 1 else 0

/-- app.py line 53: `DensityMatrix(statevector)` — the outer product
ρ[i,j] = ψ[i] · conj(ψ[j]). -/
def densityMatrix (ψ : ℕ → ℂ) (i j : ℕ) : ℂ := ψ i * conjC (ψ j)

/-- app.py line 60: `partial_trace(rho, other_qubits)` with
`other_qubits = [i for i in range(num_qubits) if i != qubit_index]` — the
reduced 2×2 density matrix of qubit `q`: entry (b, b') sums
`ψ[i] · conj(ψ[j])` over all joint indices i, j that carry bit values b, b'
at position `q` and agree on all other bits. -/
def ptrace (n q : ℕ) (ψ : ℕ → ℂ) (b b' : ℕ) : ℂ :=
  csum (2 ^ (n - 1)) fun r => densityMatrix ψ (insBit q b r) (insBit q b' r)

/-- app.py lines 57-62: `rho_reduced = partial_trace(rho, other_qubits)` when
`other_qubits` is nonempty, else `rho_reduced = rho`.  `other_qubits`
(the list `[i for i in range(num_qubits) if i != qubit_index]`) is empty
exactly when `n = 0`, or `n = 1` and the target qubit is qubit 0. -/
def rhoReduced (n q : ℕ) (ψ : ℕ → ℂ) : ℕ → ℕ → ℂ :=
  if n = 0 ∨ (n = 1 ∧ q = 0) then densityMatrix ψ else ptrace n q ψ

/-- app.py lines 49-76, the `try` block of `statevector_to_bloch_coords`.
For a valid qubit index (`q < n`) the reduced matrix is 2×2 and lines 72-74
compute
  `x = 2 * np.real(rho_matrix[0, 1])`,
  `y = -2 * np.imag(rho_matrix[0, 1])`,
  `z = np.real(rho_matrix[0, 0] - rho_matrix[1, 1])`.
For `q ≥ n` (and for `n = 0`) every qubit of the state is traced out, the
resulting matrix is 1×1, and the index expression `rho_matrix[0, 1]` raises
`IndexError`; `none` models that raised exception. -/
def blochCoordsOpt (ψ : ℕ → ℂ) (q n : ℕ) : Option (ℝ × ℝ × ℝ) :=
  if q < n then
    some (2 * (rhoReduced n q ψ 0 1).re,
          -2 * (rhoReduced n q ψ 0 1).im,
          (rhoReduced n q ψ 0 0 - rhoReduced n q ψ 1 1).re)
  else none

/-- app.py lines 47-80: `statevector_to_bloch_coords(statevector, qubit_index,
num_qubits)`.  The `except` handler (lines 78-80) catches any exception,
prints it, and returns the default coordinate `[0, 0, 1]`. -/
def statevector_to_bloch_coords (ψ : ℕ → ℂ) (q n : ℕ) : ℝ × ℝ × ℝ :=
  (blochCoordsOpt ψ q n).getD (0, 0, 1)

/-- app_backup.py lines 99-111 (inside `execute_qiskit_code`): for a
single-qubit statevector `(α, β)` it computes
  `x = 2 * np.real(np.conj(alpha) * beta)`,
  `y = 2 * np.imag(np.conj(alpha) * beta)`,
  `z = np.abs(alpha)**2 - np.abs(beta)**2`,
and then appends the dict `{'x': float(x), 'y': float(z), 'z': float(y)}`
(lines 107-111) — note that the dict stores the computed `z` under the key
`'y'` and the computed `y` under the key `'z'`.  The returned triple below is
`(x-key, y-key, z-key)` of that dict. -/
def backup_bloch_entry (α β : ℂ) : ℝ × ℝ × ℝ :=
  (2 * ((starRingEnd ℂ) α * β).re,
   Complex.normSq α - Complex.normSq β,
   2 * ((starRingEnd ℂ) α * β).im)

/-! ## Operations and the statevector evolver -/

/-- A circuit operation: a named gate with its ordered target-qubit indices
and its `2^k × 2^k` unitary given entrywise (k = number of targets).  This is
the `instruction` data of a Qiskit `QuantumCircuit`: `instruction[0]` is the
gate (name + matrix), `instruction[1]` the target qubits (app.py
lines 107-109). -/
structure Operation where
  name : String
  targets : List ℕ
  mat : ℕ → ℕ → ℂ

instance : Inhabited Operation := ⟨⟨"", [], fun _ _ => 0⟩⟩

/-- Gather the bits of `i` at the positions in `ts` into a dense gate-space
index (bit `p` of the result = bit `ts[p]` of `i`). -/
def gatherBits : List ℕ → ℕ → ℕ
  | [], _ => 0
  | t :: ts, i => bitAt t i + 2 * gatherBits ts i

/-- Replace bit `q` of `i` by `b`. -/
def setBit (q b i : ℕ) : ℕ := 2 ^ (q + 1) * (i / 2 ^ (q + 1)) + 2 ^ q * b + i % 2 ^ q

/-- Scatter the low bits of the gate-space index `j` onto the positions `ts`
inside `i` (inverse of `gatherBits` on those positions). -/
def scatterBits : List ℕ → ℕ → ℕ → ℕ
  | [], _, i => i
  | t :: ts, j, i => setBit t (j % 2) (scatterBits ts (j / 2) i)

/-- Application of one gate to a statevector: the tensor embedding of the
gate unitary acting on the target qubits and as the identity elsewhere —
the semantics of appending the instruction and evolving (Qiskit's
`Statevector` gate application). -/
def applyOp (op : Operation) (ψ : ℕ → ℂ) : ℕ → ℂ :=
  fun i => csum (2 ^ op.targets.length) fun j =>
    op.mat (gatherBits op.targets i) j * ψ (scatterBits op.targets j i)

/-- app.py line 114: `Statevector.from_instruction(step_circuit)` — simulate
the circuit from scratch: apply every gate of `ops`, in order, to the
all-zero initial state. -/
def fromInstruction (n : ℕ) (ops : List Operation) : ℕ → ℂ :=
  ops.foldl (fun s op => applyOp op s) (initSV n)

/-! ## The animation sequencer -/

/-- One entry of a step's `bloch_data` list (app.py lines 92-96 / 120-124):
a dict with keys `qubit_index`, `coordinates`, `label`. -/
structure QubitCoord where
  qubit_index : ℕ
  coordinates : ℝ × ℝ × ℝ
  label : String

/-- One step dict of the animation sequence (app.py lines 98-102 and
126-131).  The step-0 dict has no `target_qubits` key, modelled as `none`;
its `gate_name` key is present with value `'Initial State'`.  Steps k ≥ 1
carry both keys. -/
structure TraceStep where
  step : ℕ
  gate_name : Option String
  target_qubits : Option (List ℕ)
  bloch_data : List QubitCoord

instance : Inhabited TraceStep := ⟨⟨0, none, none, []⟩⟩

/-- app.py lines 89-96 / 117-124: the per-qubit coordinate list
`[{'qubit_index': q, 'coordinates': coords, 'label': f'Qubit {q}'} for q]`. -/
def mkCoords (n : ℕ) (ψ : ℕ → ℂ) : List QubitCoord :=
  (List.range n).map fun q =>
    ⟨q, statevector_to_bloch_coords ψ q n, "Qubit " ++ toString q⟩

/-- app.py lines 104-131, the gate loop of `get_animation_sequence`: at each
iteration the current gate is appended to the accumulated `step_circuit`
(`sc`) and the state is recomputed from that whole prefix by
`Statevector.from_instruction(step_circuit)`; a step dict with index `k+1`,
the gate name, its target qubits, and all `n` per-qubit coordinates is
appended. -/
def seqSteps (n : ℕ) : List Operation → List Operation → ℕ → List TraceStep
  | [], _, _ => []
  | op :: rest, sc, k =>
      ⟨k + 1, some op.name, some op.targets,
        mkCoords n (fromInstruction n (sc ++ [op]))⟩
      :: seqSteps n rest (sc ++ [op]) (k + 1)

/-- app.py lines 82-133: `get_animation_sequence(circuit, num_qubits)` —
the step-0 dict `{'step': 0, 'gate_name': 'Initial State', 'bloch_data': …}`
built from the |0...0⟩ state, followed by one step per gate. -/
def get_animation_sequence (circuit : List Operation) (n : ℕ) : List TraceStep :=
  ⟨0, some ("Initial State"), none, mkCoords n (initSV n)⟩ :: seqSteps n circuit [] 0

/-- Cost instrumentation of the gate loop of `get_animation_sequence`
(app.py lines 104-114): the iteration that processes the k-th gate holds an
accumulated `step_circuit` of length `scLen`, appends the gate to it, and
calls `Statevector.from_instruction` on the result, which applies
`scLen + 1` gates (one `applyOp` per gate of the prefix, cf.
`fromInstruction`).  `seqApps scLen rest` is therefore the total number of
gate applications the loop performs on the remaining gates `rest`. -/
def seqApps : ℕ → List Operation → ℕ
  | _, [] => 0
  | scLen, _ :: rest => (scLen + 1) + seqApps (scLen + 1) rest

/-! ## The qubit-count parser (app.py lines 10-26)

`parse_qubit_count` scans the raw source text:
Method 1 — `re.search(r'QuantumCircuit\s*\(\s*(\d+)', code)`: the leftmost
occurrence of the literal `QuantumCircuit`, optional whitespace, `(`,
optional whitespace, then one or more digits; returns the digits' value.
Method 2 — `re.findall(r'\[\s*(\d+)\s*\]', code)`: all bracketed numbers;
returns their maximum plus one.  Otherwise 1.  (Python's `\s*` is greedy but
the following pattern characters `(`, digits are never whitespace, so
maximal-munch scanning is exact; `int()` on a digit run never raises, so the
`except` branch of lines 25-26 is unreachable.) -/

/-- Python's `\s` whitespace class. -/
def isSpaceC (c : Char) : Bool :=
  c = ' ' || c = '\t' || c = '\n' || c = '\r' || c = '\x0b' || c = '\x0c'

def dropSpaces (s : List Char) : List Char := s.dropWhile isSpaceC

/-- Numeric value of a run of decimal digits (most significant first). -/
def digitsVal (ds : List Char) : ℕ :=
  ds.foldl (fun a c => 10 * a + (c.toNat - '0'.toNat)) 0

/-- Match a literal string prefix, returning the remaining characters. -/
def matchLit : List Char → List Char → Option (List Char)
  | [], s => some s
  | _ :: _, [] => none
  | c :: p, d :: s => if c = d then matchLit p s else none

/-- Try to match `QuantumCircuit\s*\(\s*(\d+)` starting exactly at the head
of `s`; return the captured number on success. -/
def matchQCAt (s : List Char) : Option ℕ :=
  match matchLit ("QuantumCircuit".toList) s with
  | none => none
  | some s1 =>
    match dropSpaces s1 with
    | '(' :: s3 =>
      let s4 := dropSpaces s3
      let ds := s4.takeWhile Char.isDigit
      if ds.isEmpty then none else some (digitsVal ds)
    | _ => none

/-- `re.search` for Method 1: leftmost match wins. -/
def searchQC : List Char → Option ℕ
  | [] => none
  | c :: rest =>
    match matchQCAt (c :: rest) with
    | some v => some v
    | none => searchQC rest

/-- Try to match `\[\s*(\d+)\s*\]` starting exactly at the head of `s`. -/
def matchBrkAt (s : List Char) : Option ℕ :=
  match s with
  | '[' :: s1 =>
    let s2 := dropSpaces s1
    let ds := s2.takeWhile Char.isDigit
    if ds.isEmpty then none
    else
      match dropSpaces (s2.dropWhile Char.isDigit) with
      | ']' :: _ => some (digitsVal ds)
      | _ => none
  | _ => none

/-- `re.findall` for Method 2.  `findall` scans non-overlapping matches left
to right; since a match of `\[\s*(\d+)\s*\]` contains the character `[` only
at its first position, no match can begin strictly inside another one, so
collecting a match attempt at every position yields exactly the same list. -/
def findBrk : List Char → List ℕ
  | [] => []
  | c :: rest =>
    match matchBrkAt (c :: rest) with
    | some v => v :: findBrk rest
    | none => findBrk rest

/-- app.py lines 10-26: `parse_qubit_count(code)`. -/
def parse_qubit_count (code : List Char) : ℕ :=
  match searchQC code with
  | some v => v
  | none =>
    match findBrk code with
    | [] => 1
    | v :: vs => (v :: vs).foldl max 0 + 1

/-! ## The top-level driver (app.py lines 135-176) -/

/-- The circuit value found in the executed namespace: Qiskit's
`QuantumCircuit` as far as the engine consumes it — its instruction list and
its qubit count. -/
structure QuantumCircuit where
  ops : List Operation
  num_qubits : ℕ

/-- Outcome of `exec(code, namespace)` followed by the namespace scan of
app.py lines 154-162: the executed Python either raises (modelled message
`msg`), or completes with the first `QuantumCircuit` value found in the
namespace (or none).  Arbitrary Python execution itself is outside the
engine; its observable outcome is this value. -/
inductive ExecOutcome where
  | raises (msg : String)
  | completes (found : Option QuantumCircuit)

/-- app.py lines 135-176: `execute_quantum_code(code)`, returning the triple
`(animation_sequence, num_qubits, error)`.  The qubit cap (lines 141-144)
is checked against the *parsed* count; on success `num_qubits` is updated to
the actual circuit's qubit count (line 168) and the sequence is computed from
the actual circuit.  The `except` handler (lines 174-176) returns
`(None, 1, str(e))`. -/
def execute_quantum_code (code : List Char) (ex : ExecOutcome) :
    Option (List TraceStep) × ℕ × Option String :=
  let num_qubits := parse_qubit_count code
  if 9 < num_qubits then
    (none, num_qubits,
     some (("Too many qubits for visualization. Maximum supported: 9, requested: ")
       ++ toString num_qubits))
  else
    match ex with
    | .raises msg => (none, 1, some msg)
    | .completes none => (none, num_qubits, some ("No quantum circuit found in code"))
    | .completes (some qc) =>
        (some (get_animation_sequence qc.ops qc.num_qubits), qc.num_qubits, none)

/-! ## The grid-layout helper (app.py lines 28-45) -/

/-- Exact value of `math.ceil(math.sqrt(m))` for a natural number `m` (the
float computation is exact for every representable circuit size). -/
def ceilSqrtNat (m : ℕ) : ℕ :=
  if Nat.sqrt m * Nat.sqrt m = m then Nat.sqrt m else Nat.sqrt m + 1

/-- Exact value of `math.ceil(a / b)` for naturals (`b > 0`). -/
def ceilDivNat (a b : ℕ) : ℕ := (a + b - 1) / b

/-- app.py lines 28-45: `calculate_grid_dimensions(num_qubits)`. -/
def calculate_grid_dimensions (n : ℤ) : ℤ × ℤ :=
  if n ≤ 0 then (1, 1)
  else if n ≤ 2 then (1, n)
  else if n ≤ 4 then (2, 2)
  else if n ≤ 6 then (2, 3)
  else if n ≤ 9 then (3, 3)
  else
    ((ceilSqrtNat n.toNat : ℤ), (ceilDivNat n.toNat (ceilSqrtNat n.toNat) : ℤ))

/-! ## Concrete inputs used by witnesses and counterexamples -/

/-- The Pauli-X gate on qubit 0 (Qiskit gate name `'x'`). -/
def opX : Operation :=
  ⟨"x", [0], fun i j => if i + j = 1 then 1 else 0⟩

/-- The single-qubit basis state |1⟩ as a statevector. -/
def svOne : ℕ → ℂ := fun i => if i = 1 then 1 else 0

/-- The single-qubit basis state |0⟩ as a statevector. -/
def svZero : ℕ → ℂ := fun i => if i = 0 then 1 else 0

/-- A user script whose parsed qubit count (Method 1 regex) is 3 but whose
executed circuit has 12 qubits: the regex captures only the first digit run
after `QuantumCircuit(`. -/
def code12 : List Char := ("qc = QuantumCircuit(3*4)").toList

/-- The 12-qubit circuit (no gates) that executing `code12` produces. -/
def qc12 : QuantumCircuit := ⟨[], 12⟩

/-- A user script whose parsed qubit count is 12. -/
def codeCap : List Char := ("qc = QuantumCircuit(12)").toList

/-! ## Arithmetic of the interleaving bijection

For `q < n`, the map `(b, r) ↦ insBit q b r` is a bijection from
`{0,1} × range (2^(n-1))` onto `range (2^n)`, with inverse
`i ↦ (bitAt q i, remBit q i)`.  These lemmas justify the index bookkeeping
of the partial trace. -/

theorem insBit_eq (q b r : ℕ) :
    insBit q b r = 2 ^ q * (2 * (r / 2 ^ q) + b) + r % 2 ^ q := by
  unfold insBit
  rw [pow_succ]
  ring

theorem bitAt_insBit (q r : ℕ) {b : ℕ} (hb : b < 2) :
    bitAt q (insBit q b r) = b := by
  have h2 : 0 < 2 ^ q := Nat.two_pow_pos q
  rw [insBit_eq, bitAt, Nat.mul_add_div h2,
    Nat.div_eq_of_lt (Nat.mod_lt r h2), add_zero, Nat.mul_add_mod,
    Nat.mod_eq_of_lt hb]

theorem remBit_insBit (q r : ℕ) {b : ℕ} (hb : b < 2) :
    remBit q (insBit q b r) = r := by
  have h2 : 0 < 2 ^ q := Nat.two_pow_pos q
  have hmod : insBit q b r % 2 ^ q = r % 2 ^ q := by
    rw [insBit_eq, Nat.mul_add_mod, Nat.mod_mod_of_dvd _ dvd_rfl]
  have hdiv : insBit q b r / 2 ^ (q + 1) = r / 2 ^ q := by
    have hble : 2 ^ q * b ≤ 2 ^ q := by
      calc 2 ^ q * b ≤ 2 ^ q * 1 := Nat.mul_le_mul_left _ (Nat.lt_succ_iff.mp hb)
        _ = 2 ^ q := Nat.mul_one _
    have hlt : 2 ^ q * b + r % 2 ^ q < 2 ^ (q + 1) := by
      have hm : r % 2 ^ q < 2 ^ q := Nat.mod_lt r h2
      have : 2 ^ (q + 1) = 2 ^ q + 2 ^ q := by rw [pow_succ]; ring
      rw [this]
      exact Nat.add_lt_add_of_le_of_lt hble hm
    rw [insBit, add_assoc, Nat.mul_add_div (Nat.two_pow_pos _),
      Nat.div_eq_of_lt hlt, add_zero]
  rw [remBit, hdiv, hmod, Nat.div_add_mod]

theorem insBit_bitAt_remBit (q i : ℕ) :
    insBit q (bitAt q i) (remBit q i) = i := by
  have h2 : 0 < 2 ^ q := Nat.two_pow_pos q
  have hmod : remBit q i % 2 ^ q = i % 2 ^ q := by
    rw [remBit, Nat.mul_add_mod, Nat.mod_mod_of_dvd _ dvd_rfl]
  have hdiv : remBit q i / 2 ^ q = i / 2 ^ (q + 1) := by
    rw [remBit, Nat.mul_add_div h2, Nat.div_eq_of_lt (Nat.mod_lt i h2), add_zero]
  have key : 2 * (i / 2 ^ (q + 1)) + i / 2 ^ q % 2 = i / 2 ^ q := by
    have hdd : i / 2 ^ q / 2 = i / 2 ^ (q + 1) := by
      rw [Nat.div_div_eq_div_mul, ← pow_succ]
    rw [← hdd]
    exact Nat.div_add_mod (i / 2 ^ q) 2
  rw [insBit_eq, hmod, hdiv, bitAt, key, Nat.div_add_mod]

theorem insBit_lt {n q b r : ℕ} (hq : q < n) (hb : b < 2) (hr : r < 2 ^ (n - 1)) :
    insBit q b r < 2 ^ n := by
  have h2 : 0 < 2 ^ q := Nat.two_pow_pos q
  have hsplit : 2 ^ q * 2 ^ (n - 1 - q) = 2 ^ (n - 1) := by
    rw [← pow_add]
    congr 1
    omega
  have hhi : r / 2 ^ q < 2 ^ (n - 1 - q) := by
    apply Nat.div_lt_of_lt_mul
    rw [hsplit]
    exact hr
  have hin : 2 * (r / 2 ^ q) + b + 1 ≤ 2 ^ (n - q) := by
    have h1 : n - q = (n - 1 - q) + 1 := by omega
    rw [h1, pow_succ]
    omega
  calc insBit q b r = 2 ^ q * (2 * (r / 2 ^ q) + b) + r % 2 ^ q := insBit_eq q b r
    _ < 2 ^ q * (2 * (r / 2 ^ q) + b) + 2 ^ q :=
        Nat.add_lt_add_left (Nat.mod_lt r h2) _
    _ = 2 ^ q * (2 * (r / 2 ^ q) + b + 1) := by ring
    _ ≤ 2 ^ q * 2 ^ (n - q) := Nat.mul_le_mul_left _ hin
    _ = 2 ^ n := by rw [← pow_add]; congr 1; omega

theorem bitAt_lt (q i : ℕ) : bitAt q i < 2 := Nat.mod_lt _ (by norm_num)

theorem remBit_lt {n q i : ℕ} (hq : q < n) (hi : i < 2 ^ n) :
    remBit q i < 2 ^ (n - 1) := by
  have h2 : 0 < 2 ^ q := Nat.two_pow_pos q
  have hd : i / 2 ^ (q + 1) + 1 ≤ 2 ^ (n - q - 1) := by
    have : i / 2 ^ (q + 1) < 2 ^ (n - q - 1) := by
      apply Nat.div_lt_of_lt_mul
      have hs : 2 ^ (q + 1) * 2 ^ (n - q - 1) = 2 ^ n := by
        rw [← pow_add]
        congr 1
        omega
      rw [hs]
      exact hi
    omega
  calc remBit q i = 2 ^ q * (i / 2 ^ (q + 1)) + i % 2 ^ q := rfl
    _ < 2 ^ q * (i / 2 ^ (q + 1)) + 2 ^ q := Nat.add_lt_add_left (Nat.mod_lt i h2) _
    _ = 2 ^ q * (i / 2 ^ (q + 1) + 1) := by ring
    _ ≤ 2 ^ q * 2 ^ (n - q - 1) := Nat.mul_le_mul_left _ hd
    _ = 2 ^ (n - 1) := by rw [← pow_add]; congr 1; omega

/-- Splitting a sum over all `2^n` basis indices according to the bit at
position `q < n`. -/
theorem sum_range_split {M : Type} [AddCommMonoid M] {n q : ℕ} (hq : q < n)
    (f : ℕ → M) :
    ∑ i ∈ Finset.range (2 ^ n), f i =
      (∑ r ∈ Finset.range (2 ^ (n - 1)), f (insBit q 0 r)) +
        ∑ r ∈ Finset.range (2 ^ (n - 1)), f (insBit q 1 r) := by
  have h1 : ∑ p ∈ Finset.range 2 ×ˢ Finset.range (2 ^ (n - 1)), f (insBit q p.1 p.2)
      = ∑ b ∈ Finset.range 2, ∑ r ∈ Finset.range (2 ^ (n - 1)), f (insBit q b r) := by
    rw [Finset.sum_product]
  have h2 : ∑ i ∈ Finset.range (2 ^ n), f i
      = ∑ p ∈ Finset.range 2 ×ˢ Finset.range (2 ^ (n - 1)), f (insBit q p.1 p.2) := by
    apply Finset.sum_nbij' (fun a => (bitAt q a, remBit q a))
      (fun p => insBit q p.1 p.2)
    · intro a ha
      simp only [Finset.mem_product, Finset.mem_range] at *
      exact ⟨bitAt_lt q a, remBit_lt hq ha⟩
    · intro p hp
      simp only [Finset.mem_product, Finset.mem_range] at hp
      simp only [Finset.mem_range]
      exact insBit_lt hq hp.1 hp.2
    · intro a _
      exact insBit_bitAt_remBit q a
    · intro p hp
      obtain ⟨b, r⟩ := p
      simp only [Finset.mem_product, Finset.mem_range] at hp
      rw [bitAt_insBit q r hp.1, remBit_insBit q r hp.1]
    · intro a _
      rw [insBit_bitAt_remBit]
  rw [h2, h1, Finset.sum_range_succ, Finset.sum_range_one]

theorem conjC_zero : conjC 0 = 0 := by apply Complex.ext <;> simp [conjC]

theorem conjC_one : conjC 1 = 1 := by apply Complex.ext <;> simp [conjC]

theorem insBit_one_ne_zero (q r : ℕ) : insBit q 1 r ≠ 0 := by
  have h2 : 0 < 2 ^ q := Nat.two_pow_pos q
  unfold insBit
  omega

theorem insBit_zero_iff (q r : ℕ) : insBit q 0 r = 0 ↔ r = 0 := by
  constructor
  · intro h
    unfold insBit at h
    have hmod : r % 2 ^ q = 0 := by omega
    have hdiv : 2 ^ (q + 1) * (r / 2 ^ q) = 0 := by omega
    have hdiv' : r / 2 ^ q = 0 := by
      rcases Nat.mul_eq_zero.mp hdiv with h' | h'
      · exact absurd h' (Nat.two_pow_pos (q + 1)).ne'
      · exact h'
    have hr := Nat.div_add_mod r (2 ^ q)
    rw [hdiv', Nat.mul_zero, zero_add, hmod] at hr
    exact hr.symm
  · intro h
    subst h
    simp [insBit]

theorem insBit_zero_zero (b : ℕ) : insBit 0 b 0 = b := by
  simp [insBit]

theorem rhoReduced_eq_ptrace {n q : ℕ} (hq : q < n) (ψ : ℕ → ℂ) (b b' : ℕ) :
    rhoReduced n q ψ b b' = ptrace n q ψ b b' := by
  unfold rhoReduced
  split
  · rename_i hcond
    rcases hcond with h0 | ⟨h1, hq0⟩
    · omega
    · subst h1; subst hq0
      rw [ptrace, csum_eq]
      norm_num
      rw [insBit_zero_zero, insBit_zero_zero]
  · rfl

theorem ptrace_diag (n q : ℕ) (ψ : ℕ → ℂ) (b : ℕ) :
    ptrace n q ψ b b =
      ((∑ r ∈ Finset.range (2 ^ (n - 1)), Complex.normSq (ψ (insBit q b r)) : ℝ) : ℂ) := by
  rw [ptrace, csum_eq, Complex.ofReal_sum]
  refine Finset.sum_congr rfl fun r _ => ?_
  rw [densityMatrix, conjC_eq, Complex.mul_conj]

theorem ptrace_init_01 (n q : ℕ) : ptrace n q (initSV n) 0 1 = 0 := by
  rw [ptrace, csum_eq]
  apply Finset.sum_eq_zero
  intro r _
  simp [densityMatrix, initSV, insBit_one_ne_zero q r, conjC_zero]

theorem ptrace_init_11 (n q : ℕ) : ptrace n q (initSV n) 1 1 = 0 := by
  rw [ptrace, csum_eq]
  apply Finset.sum_eq_zero
  intro r _
  simp [densityMatrix, initSV, insBit_one_ne_zero q r, conjC_zero]

theorem ptrace_init_00 (n q : ℕ) : ptrace n q (initSV n) 0 0 = 1 := by
  rw [ptrace, csum_eq]
  have hcong : ∀ r ∈ Finset.range (2 ^ (n - 1)),
      densityMatrix (initSV n) (insBit q 0 r) (insBit q 0 r)
        = if r = 0 then (1 : ℂ) else 0 := by
    intro r _
    by_cases h : r = 0
    · subst h
      simp [densityMatrix, initSV, (insBit_zero_iff q 0).mpr rfl, conjC_one]
    · have hne : insBit q 0 r ≠ 0 := fun hc => h ((insBit_zero_iff q r).mp hc)
      simp [densityMatrix, initSV, hne, conjC_zero, h]
  rw [Finset.sum_congr rfl hcong, Finset.sum_ite_eq' (Finset.range (2 ^ (n - 1))) 0 fun _ => (1 : ℂ)]
  simp [Finset.mem_range, Nat.two_pow_pos]

theorem bloch_coords_init {n q : ℕ} (hq : q < n) :
    statevector_to_bloch_coords (initSV n) q n = (0, 0, 1) := by
  rw [statevector_to_bloch_coords, blochCoordsOpt, if_pos hq, Option.getD_some]
  have e := rhoReduced_eq_ptrace hq (initSV n)
  rw [e 0 1, e 0 0, e 1 1, ptrace_init_01, ptrace_init_00, ptrace_init_11]
  norm_num

/-- On a valid qubit index the computed coordinate is the projector formula
applied to the partial-trace reduced density matrix; this covers both code
paths of app.py lines 59-62 (the explicit partial trace and the n = 1
shortcut that uses the full density matrix directly). -/
theorem bloch_coords_formula (ψ : ℕ → ℂ) (q n : ℕ) (hq : q < n) :
    statevector_to_bloch_coords ψ q n =
      (2 * (ptrace n q ψ 0 1).re,
       -2 * (ptrace n q ψ 0 1).im,
       (ptrace n q ψ 0 0 - ptrace n q ψ 1 1).re) := by
  rw [statevector_to_bloch_coords, blochCoordsOpt, if_pos hq, Option.getD_some]
  have e := rhoReduced_eq_ptrace hq ψ
  rw [e 0 1, e 0 0, e 1 1]

/-- C1: for every reduced density matrix produced by the density-reduction
step on a valid qubit index, the projector returns exactly
x = 2·Re(ρ₀₁), y = −2·Im(ρ₀₁), z = Re(ρ₀₀ − ρ₁₁). -/
theorem bloch_projector_formula (ψ : ℕ → ℂ) (q n : ℕ) (hq : q < n) :
    statevector_to_bloch_coords ψ q n =
      (2 * (ptrace n q ψ 0 1).re,
       -2 * (ptrace n q ψ 0 1).im,
       (ptrace n q ψ 0 0 - ptrace n q ψ 1 1).re) :=
  bloch_coords_formula ψ q n hq

theorem bloch_projector_formula_witness :
    statevector_to_bloch_coords svZero 0 2 =
      (2 * (ptrace 2 0 svZero 0 1).re,
       -2 * (ptrace 2 0 svZero 0 1).im,
       (ptrace 2 0 svZero 0 0 - ptrace 2 0 svZero 1 1).re) :=
  bloch_projector_formula svZero 0 2 (by norm_num)

/-- C2: for every qubit count n ≥ 1, step 0 of the animation sequence has
step index 0 and assigns every qubit the exact Bloch coordinate (0, 0, 1),
computed from the all-zero initial state. -/
theorem initial_step_coords (n : ℕ) (ops : List Operation) (q : ℕ)
    (_hn : 1 ≤ n) (hq : q < n) :
    (get_animation_sequence ops n).headI.step = 0 ∧
    ((get_animation_sequence ops n).headI.bloch_data)[q]? =
      some ⟨q, ((0 : ℝ), (0 : ℝ), (1 : ℝ)), "Qubit " ++ toString q⟩ := by
  constructor
  · rfl
  · show (mkCoords n (initSV n))[q]? = _
    rw [mkCoords, List.getElem?_map, List.getElem?_range hq, Option.map_some']
    rw [bloch_coords_init hq]

theorem initial_step_coords_witness :
    (get_animation_sequence [] 1).headI.step = 0 ∧
    ((get_animation_sequence [] 1).headI.bloch_data)[0]? =
      some ⟨0, ((0 : ℝ), (0 : ℝ), (1 : ℝ)), "Qubit " ++ toString 0⟩ :=
  initial_step_coords 1 [] 0 (by norm_num) (by norm_num)

theorem ceilSqrtNat_cast (m : ℕ) : (ceilSqrtNat m : ℤ) = ⌈Real.sqrt m⌉ := by
  unfold ceilSqrtNat
  split
  · rename_i h
    have hm : (m : ℝ) = (Nat.sqrt m : ℝ) * (Nat.sqrt m : ℝ) := by exact_mod_cast h.symm
    rw [hm, Real.sqrt_mul_self (by positivity), Int.ceil_natCast]
  · rename_i h
    have hlb : Nat.sqrt m * Nat.sqrt m < m := lt_of_le_of_ne (Nat.sqrt_le m) h
    have hub : m ≤ (Nat.sqrt m + 1) * (Nat.sqrt m + 1) := le_of_lt (Nat.lt_succ_sqrt m)
    symm
    rw [Int.ceil_eq_iff]
    constructor
    · have hs : ((Nat.sqrt m : ℝ)) < Real.sqrt m := by
        rw [Real.lt_sqrt (by positivity)]
        have hlb' : Nat.sqrt m ^ 2 < m := by rw [pow_two]; exact hlb
        exact_mod_cast hlb'
      push_cast
      linarith
    · have hub' : (m : ℝ) ≤ ((Nat.sqrt m : ℝ) + 1) ^ 2 := by
        have : m ≤ (Nat.sqrt m + 1) ^ 2 := by rw [pow_two]; exact hub
        exact_mod_cast this
      have hc : Real.sqrt m ≤ (Nat.sqrt m : ℝ) + 1 := by
        calc Real.sqrt m ≤ Real.sqrt (((Nat.sqrt m : ℝ) + 1) ^ 2) := Real.sqrt_le_sqrt hub'
          _ = (Nat.sqrt m : ℝ) + 1 := Real.sqrt_sq (by positivity)
      push_cast
      linarith

theorem ceilDivNat_bounds {b : ℕ} (a : ℕ) (hb : 1 ≤ b) :
    a ≤ b * ceilDivNat a b ∧ b * ceilDivNat a b < a + b := by
  have hb0 : 0 < b := hb
  have hx := Nat.div_add_mod (a + b - 1) b
  have hm := Nat.mod_lt (a + b - 1) hb0
  rw [ceilDivNat]
  revert hx hm
  generalize b * ((a + b - 1) / b) = t
  intro hx hm
  omega

theorem ceilDivNat_cast {b : ℕ} (a : ℕ) (hb : 1 ≤ b) :
    (ceilDivNat a b : ℤ) = ⌈(a : ℝ) / (b : ℝ)⌉ := by
  obtain ⟨h1, h2⟩ := ceilDivNat_bounds a hb
  have hbR : (0 : ℝ) < b := by positivity
  symm
  rw [Int.ceil_eq_iff]
  constructor
  · rw [lt_div_iff₀ hbR]
    have h2R : (b : ℝ) * ceilDivNat a b < a + b := by exact_mod_cast h2
    have he : ((ceilDivNat a b : ℤ) : ℝ) = (ceilDivNat a b : ℝ) := by push_cast; ring
    rw [he]
    nlinarith
  · rw [div_le_iff₀ hbR]
    have h1R : (a : ℝ) ≤ b * ceilDivNat a b := by exact_mod_cast h1
    have he : ((ceilDivNat a b : ℤ) : ℝ) = (ceilDivNat a b : ℝ) := by push_cast; ring
    rw [he]
    nlinarith

theorem ceilSqrtNat_pos {m : ℕ} (hm : 1 ≤ m) : 1 ≤ ceilSqrtNat m := by
  unfold ceilSqrtNat
  split
  · rename_i h
    by_contra hc
    push_neg at hc
    have h0 : Nat.sqrt m = 0 := by omega
    rw [h0] at h
    omega
  · omega

/-- C9: the grid-layout helper realizes exactly the documented piecewise
formula, with the last branch equal to the exact real ceiling computations
rows = ⌈√n⌉ and cols = ⌈n / rows⌉. -/
theorem grid_dimensions_spec : ∀ n : ℤ,
    (n ≤ 0 → calculate_grid_dimensions n = (1, 1)) ∧
    (0 < n → n ≤ 2 → calculate_grid_dimensions n = (1, n)) ∧
    (2 < n → n ≤ 4 → calculate_grid_dimensions n = (2, 2)) ∧
    (4 < n → n ≤ 6 → calculate_grid_dimensions n = (2, 3)) ∧
    (6 < n → n ≤ 9 → calculate_grid_dimensions n = (3, 3)) ∧
    (9 < n → calculate_grid_dimensions n =
      (⌈Real.sqrt (n : ℝ)⌉, ⌈(n : ℝ) / (⌈Real.sqrt (n : ℝ)⌉ : ℝ)⌉)) := by
  intro n
  refine ⟨?_, ?_, ?_, ?_, ?_, ?_⟩
  · intro h
    rw [calculate_grid_dimensions, if_pos h]
  · intro h1 h2
    rw [calculate_grid_dimensions, if_neg (by omega), if_pos h2]
  · intro h1 h2
    rw [calculate_grid_dimensions, if_neg (by omega), if_neg (by omega), if_pos h2]
  · intro h1 h2
    rw [calculate_grid_dimensions, if_neg (by omega), if_neg (by omega),
      if_neg (by omega), if_pos h2]
  · intro h1 h2
    rw [calculate_grid_dimensions, if_neg (by omega), if_neg (by omega),
      if_neg (by omega), if_neg (by omega), if_pos h2]
  · intro h
    rw [calculate_grid_dimensions, if_neg (by omega), if_neg (by omega),
      if_neg (by omega), if_neg (by omega), if_neg (by omega)]
    have hm : 1 ≤ n.toNat := by omega
    have hmn : ((n.toNat : ℤ)) = n := Int.toNat_of_nonneg (by omega)
    have hR : ((n.toNat : ℝ)) = (n : ℝ) := by exact_mod_cast hmn
    have h1 : (ceilSqrtNat n.toNat : ℤ) = ⌈Real.sqrt (n : ℝ)⌉ := by
      rw [ceilSqrtNat_cast, hR]
    have h2 : (ceilDivNat n.toNat (ceilSqrtNat n.toNat) : ℤ) =
        ⌈(n : ℝ) / (⌈Real.sqrt (n : ℝ)⌉ : ℝ)⌉ := by
      rw [ceilDivNat_cast n.toNat (ceilSqrtNat_pos hm), hR]
      have hden : ((ceilSqrtNat n.toNat : ℕ) : ℝ) = ((⌈Real.sqrt (n : ℝ)⌉ : ℤ) : ℝ) := by
        exact_mod_cast h1
      rw [hden]
    rw [Prod.mk.injEq]
    exact ⟨h1, h2⟩

theorem grid_dimensions_spec_witness :
    calculate_grid_dimensions 12 =
      (⌈Real.sqrt ((12 : ℤ) : ℝ)⌉, ⌈((12 : ℤ) : ℝ) / (⌈Real.sqrt ((12 : ℤ) : ℝ)⌉ : ℝ)⌉) :=
  (grid_dimensions_spec 12).2.2.2.2.2 (by norm_num)

/-- C10 (implicit): for n ≥ 1 the grid has positive dimensions and at least
one cell per qubit. -/
theorem grid_dimensions_cover (n : ℤ) (hn : 1 ≤ n) :
    1 ≤ (calculate_grid_dimensions n).1 ∧ 1 ≤ (calculate_grid_dimensions n).2 ∧
      n ≤ (calculate_grid_dimensions n).1 * (calculate_grid_dimensions n).2 := by
  rw [calculate_grid_dimensions]
  split_ifs with h1 h2 h3 h4 h5
  · omega
  · simp only
    omega
  · simp only
    omega
  · simp only
    omega
  · simp only
    omega
  · simp only
    have hm : 1 ≤ n.toNat := by omega
    have hr := ceilSqrtNat_pos hm
    obtain ⟨hc1, _⟩ := ceilDivNat_bounds n.toNat hr
    have hcol : 1 ≤ ceilDivNat n.toNat (ceilSqrtNat n.toNat) := by
      by_contra hc
      push_neg at hc
      have : ceilDivNat n.toNat (ceilSqrtNat n.toNat) = 0 := by omega
      rw [this, Nat.mul_zero] at hc1
      omega
    refine ⟨by exact_mod_cast hr, by exact_mod_cast hcol, ?_⟩
    have : (n.toNat : ℤ) ≤ (ceilSqrtNat n.toNat : ℤ) * (ceilDivNat n.toNat (ceilSqrtNat n.toNat) : ℤ) := by
      exact_mod_cast hc1
    have hmn : ((n.toNat : ℤ)) = n := Int.toNat_of_nonneg (by omega)
    rw [hmn] at this
    exact this

theorem grid_dimensions_cover_witness :
    1 ≤ (calculate_grid_dimensions 7).1 ∧ 1 ≤ (calculate_grid_dimensions 7).2 ∧
      (7 : ℤ) ≤ (calculate_grid_dimensions 7).1 * (calculate_grid_dimensions 7).2 :=
  grid_dimensions_cover 7 (by norm_num)

/-- C8: the two Bloch-coordinate computations in the source disagree on a
single-qubit pure state.  On |0⟩ = (1, 0), app.py returns (0, 0, 1) while
app_backup.py returns (0, 1, 0): the backup computes the same x, y, z values
but stores z under the `'y'` key and y under the `'z'` key of its result
dict (app_backup.py lines 107-111). -/
theorem bloch_variants_differ :
    ∃ α β : ℂ, Complex.normSq α + Complex.normSq β = 1 ∧
      statevector_to_bloch_coords (fun i => if i = 0 then α else β) 0 1 ≠
        backup_bloch_entry α β := by
  refine ⟨1, 0, by simp, ?_⟩
  have h1 : statevector_to_bloch_coords (fun i => if i = 0 then (1 : ℂ) else 0) 0 1
      = (0, 0, 1) := by
    have he : (fun i => if i = 0 then (1 : ℂ) else 0) = initSV 1 := rfl
    rw [he]
    exact bloch_coords_init (by norm_num)
  rw [h1, backup_bloch_entry]
  norm_num [Prod.ext_iff]

theorem mkCoords_indices (n : ℕ) (ψ : ℕ → ℂ) :
    (mkCoords n ψ).map QubitCoord.qubit_index = List.range n := by
  simp [mkCoords, List.map_map]
  exact List.map_id _

theorem seqSteps_nil (n : ℕ) (sc : List Operation) (k : ℕ) :
    seqSteps n [] sc k = [] := rfl

theorem seqSteps_cons (n : ℕ) (op : Operation) (rest sc : List Operation) (k : ℕ) :
    seqSteps n (op :: rest) sc k =
      ⟨k + 1, some op.name, some op.targets,
        mkCoords n (fromInstruction n (sc ++ [op]))⟩
        :: seqSteps n rest (sc ++ [op]) (k + 1) := rfl

theorem seqSteps_getElem (n : ℕ) :
    ∀ (rest sc : List Operation) (k i : ℕ),
      (seqSteps n rest sc k)[i]? = (rest[i]?).map fun op =>
        (⟨k + i + 1, some op.name, some op.targets,
          mkCoords n (fromInstruction n (sc ++ rest.take (i + 1)))⟩ : TraceStep) := by
  intro rest
  induction rest with
  | nil =>
    intro sc k i
    rw [seqSteps_nil]
    cases i <;> rfl
  | cons op rest ih =>
    intro sc k i
    cases i with
    | zero =>
      simp [seqSteps_cons, List.take_succ_cons]
    | succ j =>
      rw [seqSteps_cons]
      simp only [List.getElem?_cons_succ]
      rw [ih]
      refine congrArg (fun h => Option.map h rest[j]?) (funext fun w => ?_)
      simp only [TraceStep.mk.injEq]
      refine ⟨by omega, trivial, trivial, ?_⟩
      have hap : (sc ++ [op]) ++ rest.take (j + 1) = sc ++ (op :: rest.take (j + 1)) := by
        rw [List.append_assoc]
        rfl
      rw [List.take_succ_cons, ← hap]

theorem seqSteps_length (n : ℕ) :
    ∀ (rest sc : List Operation) (k : ℕ), (seqSteps n rest sc k).length = rest.length := by
  intro rest
  induction rest with
  | nil => intro sc k; rfl
  | cons op rest ih =>
    intro sc k
    rw [seqSteps_cons]
    simp [ih]

/-- C3 (amended): the animation sequence has m+1 steps indexed 0..m in
order, each carrying per-qubit data for qubits 0..n−1; step k ≥ 1 carries
the k-th operation's gate name and target list; step 0 carries no
target_qubits key but its gate_name key is present with the placeholder
value 'Initial State'. -/
theorem animation_trace_shape : ∀ (circ : List Operation) (n : ℕ),
    (get_animation_sequence circ n).length = circ.length + 1 ∧
    (∀ k, k ≤ circ.length →
      ((get_animation_sequence circ n)[k]?).map TraceStep.step = some k ∧
      ((get_animation_sequence circ n)[k]?).map
          (fun s => s.bloch_data.map QubitCoord.qubit_index) = some (List.range n)) ∧
    ((get_animation_sequence circ n)[0]?).map TraceStep.gate_name
        = some (some ("Initial State")) ∧
    ((get_animation_sequence circ n)[0]?).map TraceStep.target_qubits = some none ∧
    (∀ k, ((get_animation_sequence circ n)[k + 1]?).map TraceStep.gate_name
        = (circ[k]?).map fun op => some op.name) ∧
    (∀ k, ((get_animation_sequence circ n)[k + 1]?).map TraceStep.target_qubits
        = (circ[k]?).map fun op => some op.targets) := by
  intro circ n
  have hgead : ∀ k, (get_animation_sequence circ n)[k + 1]? = (seqSteps n circ [] 0)[k]? := by
    intro k
    rw [get_animation_sequence]
    exact List.getElem?_cons_succ
  refine ⟨?_, ?_, ?_, ?_, ?_, ?_⟩
  · rw [get_animation_sequence]
    simp [seqSteps_length]
  · intro k hk
    cases k with
    | zero =>
      constructor
      · simp [get_animation_sequence]
      · simp [get_animation_sequence, mkCoords_indices]
    | succ j =>
      have hj : j < circ.length := by omega
      have hc : circ[j]? = some circ[j] := List.getElem?_eq_getElem hj
      constructor
      · rw [hgead j, seqSteps_getElem n circ [] 0 j, hc]
        simp
      · rw [hgead j, seqSteps_getElem n circ [] 0 j, hc]
        simp [mkCoords_indices]
  · simp [get_animation_sequence]
  · simp [get_animation_sequence]
  · intro k
    rw [hgead k, seqSteps_getElem n circ [] 0 k]
    cases hc : circ[k]? <;> simp
  · intro k
    rw [hgead k, seqSteps_getElem n circ [] 0 k]
    cases hc : circ[k]? <;> simp

theorem animation_trace_shape_witness :
    ((get_animation_sequence [opX] 1)[1]?).map TraceStep.step = some 1 ∧
    ((get_animation_sequence [opX] 1)[1]?).map
        (fun s => s.bloch_data.map QubitCoord.qubit_index) = some (List.range 1) :=
  (animation_trace_shape [opX] 1).2.1 1 (by norm_num)

/-- C3 counterexample: on the one-gate circuit [x] the step-0 dict's
gate_name key is not absent — it is present with value 'Initial State'
(app.py line 100) — refuting the claim that the gate-name descriptor is
absent for the initial step. -/
theorem step0_gate_name_present :
    ((get_animation_sequence [opX] 1)[0]?).map TraceStep.gate_name
        = some (some ("Initial State")) ∧
      ((get_animation_sequence [opX] 1)[0]?).map TraceStep.gate_name ≠ some none := by
  constructor
  · simp [get_animation_sequence]
  · simp [get_animation_sequence]

theorem seqApps_nil (s : ℕ) : seqApps s [] = 0 := rfl

theorem seqApps_cons (s : ℕ) (op : Operation) (rest : List Operation) :
    seqApps s (op :: rest) = (s + 1) + seqApps (s + 1) rest := rfl

theorem seqApps_two_mul : ∀ (rest : List Operation) (s : ℕ),
    2 * seqApps s rest = rest.length * (2 * s + rest.length + 1) := by
  intro rest
  induction rest with
  | nil => intro s; simp [seqApps_nil]
  | cons op rest ih =>
    intro s
    rw [seqApps_cons, Nat.mul_add, ih (s + 1)]
    simp only [List.length_cons]
    ring

/-- C6 (amended): the gate loop of `get_animation_sequence` recomputes the
state from scratch from the accumulated circuit prefix at every step
(`Statevector.from_instruction(step_circuit)`, app.py lines 110-114), so on
an m-gate circuit it performs m·(m+1)/2 gate applications in total —
Θ(m²·2^n) work — instead of the m applications (O(m·2^n) work) that a
persistent running state would need. -/
theorem sequencer_work_quadratic (circ : List Operation) :
    2 * seqApps 0 circ = circ.length * (circ.length + 1) := by
  have h := seqApps_two_mul circ 0
  simpa using h

/-- C6 counterexample: on a concrete 100-gate circuit the code performs
5050 gate applications, not the 100 (one per step, each O(2^n)) that the
claimed cumulative evolution would perform. -/
theorem sequencer_work_not_linear :
    seqApps 0 (List.replicate 100 opX) = 5050 ∧
      (List.replicate 100 opX).length = 100 ∧
      ¬ seqApps 0 (List.replicate 100 opX) = (List.replicate 100 opX).length := by
  have h := seqApps_two_mul (List.replicate 100 opX) 0
  rw [List.length_replicate] at h
  refine ⟨by omega, by simp, ?_⟩
  rw [List.length_replicate]
  omega

/-- C4 counterexample: an error inside the Bloch-coordinate computation is
silently recovered to the default coordinate (0, 0, 1) instead of being
surfaced as a failure: on the single-qubit state |1⟩ with the invalid qubit
index 1, the `try` block raises (every qubit is traced out, so
`rho_matrix[0, 1]` is out of bounds; modelled by `blochCoordsOpt = none`)
and the `except` handler of app.py lines 78-80 returns the default
[0, 0, 1]. -/
theorem bloch_error_silently_defaulted :
    blochCoordsOpt svOne 1 1 = none ∧
      statevector_to_bloch_coords svOne 1 1 = (0, 0, 1) := by
  constructor
  · rw [blochCoordsOpt, if_neg (by omega)]
  · rw [statevector_to_bloch_coords, blochCoordsOpt, if_neg (by omega)]
    rfl

/-- C4 (amended): errors reaching `execute_quantum_code` do abort the run —
whenever an error message is returned, no trace is returned (all-or-nothing
at the top level) — but an error inside a per-qubit Bloch-coordinate
computation is NOT surfaced: it is silently recovered to the default
coordinate (0, 0, 1) by the handler of app.py lines 78-80. -/
theorem error_handling_top_level_only :
    (∀ (code : List Char) (ex : ExecOutcome),
        (execute_quantum_code code ex).2.2 ≠ none →
          (execute_quantum_code code ex).1 = none) ∧
      blochCoordsOpt svOne 1 1 = none ∧
      statevector_to_bloch_coords svOne 1 1 = (0, 0, 1) := by
  refine ⟨?_, ?_, ?_⟩
  · intro code ex h
    by_cases hcap : 9 < parse_qubit_count code
    · rw [execute_quantum_code.eq_def]
      simp only [if_pos hcap]
    · rw [execute_quantum_code.eq_def] at h ⊢
      simp only [if_neg hcap] at h ⊢
      cases ex with
      | raises msg => rfl
      | completes found =>
        cases found with
        | none => rfl
        | some qc => exact absurd rfl h
  · rw [blochCoordsOpt, if_neg (by omega)]
  · rw [statevector_to_bloch_coords, blochCoordsOpt, if_neg (by omega)]
    rfl

theorem error_handling_top_level_only_witness :
    (execute_quantum_code codeCap (ExecOutcome.completes none)).1 = none :=
  error_handling_top_level_only.1 codeCap (ExecOutcome.completes none) (by decide)

/-- C5: the 9-qubit capacity check of app.py lines 141-144 is applied to the
heuristically parsed count, and `num_qubits` is re-derived from the actual
circuit only AFTER the check (line 168).  On the script
`qc = QuantumCircuit(3*4)` the regex captures `3`, the check passes, and the
actual 12-qubit circuit produced by `exec` is simulated and its trace
returned with no error — a circuit with more than 9 qubits is simulated,
contradicting the claim (and the cap's own stated intent). -/
theorem cap_bypassed_by_parse_underestimate :
    parse_qubit_count code12 = 3 ∧
      9 < qc12.num_qubits ∧
      (execute_quantum_code code12 (ExecOutcome.completes (some qc12))).2.2 = none ∧
      (execute_quantum_code code12 (ExecOutcome.completes (some qc12))).2.1 = 12 ∧
      (execute_quantum_code code12 (ExecOutcome.completes (some qc12))).1 =
        some (get_animation_sequence qc12.ops 12) := by
  refine ⟨by decide, by decide, rfl, rfl, rfl⟩

/-- C7: for every normalized statevector and valid qubit index, the computed
Bloch coordinate lies in the closed unit ball (so in particular within the
claimed 1e-6 tolerance): exact arithmetic gives
x² + y² + z² = 4·|ρ₀₁|² + (ρ₀₀ − ρ₁₁)² ≤ 4·ρ₀₀·ρ₁₁ + (ρ₀₀ − ρ₁₁)²
= (ρ₀₀ + ρ₁₁)² = 1, by Cauchy-Schwarz on the partial-trace sums. -/
theorem bloch_norm_le (ψ : ℕ → ℂ) (q n : ℕ) (hq : q < n)
    (hnorm : ∑ i ∈ Finset.range (2 ^ n), Complex.normSq (ψ i) = 1) :
    (statevector_to_bloch_coords ψ q n).1 ^ 2
      + (statevector_to_bloch_coords ψ q n).2.1 ^ 2
      + (statevector_to_bloch_coords ψ q n).2.2 ^ 2 ≤ 1 + 1 / 1000000 := by
  rw [bloch_coords_formula ψ q n hq]
  dsimp only
  have h00 : ptrace n q ψ 0 0
      = ((∑ r ∈ Finset.range (2 ^ (n - 1)), Complex.normSq (ψ (insBit q 0 r)) : ℝ) : ℂ) :=
    ptrace_diag n q ψ 0
  have h11 : ptrace n q ψ 1 1
      = ((∑ r ∈ Finset.range (2 ^ (n - 1)), Complex.normSq (ψ (insBit q 1 r)) : ℝ) : ℂ) :=
    ptrace_diag n q ψ 1
  set A := ∑ r ∈ Finset.range (2 ^ (n - 1)), Complex.normSq (ψ (insBit q 0 r)) with hA
  set B := ∑ r ∈ Finset.range (2 ^ (n - 1)), Complex.normSq (ψ (insBit q 1 r)) with hB
  have hAB : A + B = 1 := by
    have hsplit := sum_range_split hq fun i => Complex.normSq (ψ i)
    rw [hnorm] at hsplit
    exact hsplit.symm
  have hz : (ptrace n q ψ 0 0 - ptrace n q ψ 1 1).re = A - B := by
    rw [h00, h11]
    simp
  have h01 : ptrace n q ψ 0 1 =
      ∑ r ∈ Finset.range (2 ^ (n - 1)),
        ψ (insBit q 0 r) * (starRingEnd ℂ) (ψ (insBit q 1 r)) := by
    rw [ptrace, csum_eq]
    exact Finset.sum_congr rfl fun r _ => by rw [densityMatrix, conjC_eq]
  have habs : Complex.abs (ptrace n q ψ 0 1)
      ≤ ∑ r ∈ Finset.range (2 ^ (n - 1)),
          Complex.abs (ψ (insBit q 0 r)) * Complex.abs (ψ (insBit q 1 r)) := by
    rw [h01]
    refine le_trans (AbsoluteValue.sum_le Complex.abs _ _) (le_of_eq ?_)
    refine Finset.sum_congr rfl fun r _ => ?_
    rw [map_mul, Complex.abs_conj]
  have hCS : Complex.normSq (ptrace n q ψ 0 1) ≤ A * B := by
    have h1 : Complex.normSq (ptrace n q ψ 0 1)
        = Complex.abs (ptrace n q ψ 0 1) ^ 2 := (Complex.sq_abs _).symm
    have h2 : Complex.abs (ptrace n q ψ 0 1) ^ 2
        ≤ (∑ r ∈ Finset.range (2 ^ (n - 1)),
            Complex.abs (ψ (insBit q 0 r)) * Complex.abs (ψ (insBit q 1 r))) ^ 2 :=
      pow_le_pow_left₀ (AbsoluteValue.nonneg _ _) habs 2
    have h3 := Finset.sum_mul_sq_le_sq_mul_sq (Finset.range (2 ^ (n - 1)))
      (fun r => Complex.abs (ψ (insBit q 0 r))) (fun r => Complex.abs (ψ (insBit q 1 r)))
    have h4 : (∑ r ∈ Finset.range (2 ^ (n - 1)), Complex.abs (ψ (insBit q 0 r)) ^ 2) = A :=
      Finset.sum_congr rfl fun r _ => Complex.sq_abs _
    have h5 : (∑ r ∈ Finset.range (2 ^ (n - 1)), Complex.abs (ψ (insBit q 1 r)) ^ 2) = B :=
      Finset.sum_congr rfl fun r _ => Complex.sq_abs _
    rw [h4, h5] at h3
    calc Complex.normSq (ptrace n q ψ 0 1)
        = Complex.abs (ptrace n q ψ 0 1) ^ 2 := h1
      _ ≤ _ := h2
      _ ≤ A * B := h3
  have hxy : (2 * (ptrace n q ψ 0 1).re) ^ 2 + (-2 * (ptrace n q ψ 0 1).im) ^ 2
      = 4 * Complex.normSq (ptrace n q ψ 0 1) := by
    rw [Complex.normSq_apply]
    ring
  rw [hz, hxy]
  have hsq : (A + B) ^ 2 = 1 := by rw [hAB]; norm_num
  nlinarith [hCS, hsq, sq_nonneg (A - B)]

theorem bloch_norm_le_witness :
    (statevector_to_bloch_coords svZero 0 1).1 ^ 2
      + (statevector_to_bloch_coords svZero 0 1).2.1 ^ 2
      + (statevector_to_bloch_coords svZero 0 1).2.2 ^ 2 ≤ 1 + 1 / 1000000 :=
  bloch_norm_le svZero 0 1 (by norm_num)
    (by simp [svZero, Finset.sum_range_succ])
